import Mathlib

/-!
Verification of the corintick chunk codec and range validation logic.

This file gives a shallow embedding of the algorithmic core of the
repository:

* `src/corintick/serialization.py` — `_make_bson_doc`, `make_bson_docs`,
  `_build_dataframe`, `build_dataframe` (with its inner
  `fix_column_ordering`), and
* `src/corintick/corintick.py` — `Corintick._validate_dates` and the
  `$or` interval filter built in `Corintick._query`.

Modelling conventions:

* Timestamps are integers (UTC instants, think nanoseconds since epoch).
* A DataFrame is a row list `(timestamp, cells)` plus an ordered list of
  column names and an optional fixed timezone offset of its index
  (seconds east of UTC; `none` models a timezone-naive index).
* Cell values live in an abstract type `α`; the per-column blob codec
  (`_serialize_array`/`_deserialize_array`, an lz4/numpy/msgpack round
  trip external to the repository's algorithmic content) is modelled as
  lossless, while the *sizes* of the compressed blobs — which drive the
  95%-of-16MiB ceiling check and the ratio-based re-split — are kept
  abstract as function parameters `szI` (index blob) and `szC` (column
  blob), so size-dependent behaviour is quantified over all possible
  compressors.
* Python float arithmetic (`0.95 * MAX_BSON_SIZE`, `np.ceil`, `np.floor`
  and the compression ratio) is modelled with exact rationals; all the
  constants involved make the comparisons equivalent to the float ones
  (the thresholds `0.95 * 2^24` and `0.8 * 2^24` are non-integers
  strictly between consecutive integers in both arithmetics).
* Fallible code returns `Except Err`: Python exceptions (`InvalidBSON`,
  `IndexError`, `ValueError`, `AssertionError`, …) become error values.
  The unbounded recursion of `make_bson_docs` is given explicit fuel;
  running out of fuel is the error `retryLimit`.
* `sort_index(ascending=True)` and `sorted(..., key=...)` are modelled
  by a stable ascending insertion sort on the integer key.
-/

namespace Corintick

/-- `MAX_BSON_SIZE = 2 ** 24` (serialization.py line 19): the hard
per-document ceiling of the target store, 16 MiB. -/
def MAX_BSON_SIZE : ℕ := 2 ^ 24

/-- Python `int(q * 3600)` for an exact rational `q` (a `Rat` is
normalized with positive denominator, so the value `q * 3600` is the
fraction `q.num * 3600 / q.den` and `int(...)` truncates it toward
zero, which is exactly integer t-division). -/
def truncSeconds (q : ℚ) : ℤ := Int.tdiv (q.num * 3600) q.den

/-- `np.floor(0.95 * MAX_BSON_SIZE / r)` (serialization.py 154) on the
exact rational `r`: the value is `19 * 2^24 * r.den / (20 * r.num)` and
`np.floor` rounds toward `-∞`, which is integer f-division. -/
def newMaxSize (r : ℚ) : ℤ := Int.fdiv (19 * (2 ^ 24 : ℤ) * r.den) (20 * r.num)

/-- Insert into an ascending (by `key`) list, in front of the first
element with a key `≥ key x`; the building block of a *stable*
ascending sort (equal keys keep their original relative order). -/
def insertK (key : β → ℤ) (x : β) : List β → List β
  | [] => [x]
  | y :: ys => if key x ≤ key y then x :: y :: ys else y :: insertK key x ys

/-- Stable ascending sort by an integer key, modelling
`DataFrame.sort_index(ascending=True)` and `sorted(docs, key=...)`. -/
def sortK (key : β → ℤ) : List β → List β
  | [] => []
  | x :: xs => insertK key x (sortK key xs)

/-- A timeseries DataFrame (the codec's Segment).  `tz` is the fixed UTC
offset of the `DatetimeIndex` in seconds (`none` = timezone-naive);
row timestamps are absolute instants. -/
structure DF (α : Type) where
  tz : Option ℤ
  names : List String
  rows : List (ℤ × List α)
deriving DecidableEq

/-- A chunk record, the BSON document assembled by `_make_bson_doc`
(caller-supplied metadata is carried verbatim and never read back by the
decoder, so it is omitted from the model; `end` is a Lean keyword, the
field is called `stop`). -/
structure Doc (α : Type) where
  uid : String
  start : ℤ
  stop : ℤ
  nrows : ℕ
  binarySize : ℕ
  utcOffset : Option ℚ
  index : List ℤ
  cols : List (String × List α)
deriving DecidableEq

/-- The merged result of `build_dataframe`: cells are `Option α` because
`pd.concat`/`reindex` fill columns missing from a chunk with NaN. -/
structure Merged (α : Type) where
  names : List String
  rows : List (ℤ × List (Option α))
deriving DecidableEq

/-- The Python exceptions the embedded code can raise. -/
inductive Err where
  /-- `IndexError: df.index[0]` on an empty sub-frame (serialization.py 119;
  an empty frame can also die on the `binary_size / mem_usage` division). -/
  | emptyIndex
  /-- `InvalidBSON(msg, compression_ratio)` (serialization.py 112). -/
  | invalidBSON : ℚ → Err
  /-- the failed `assert new_max_size > MAX_BSON_SIZE * 0.8` (line 155). -/
  | assertionError
  /-- `np.array_split` with a non-positive section count. -/
  | splitError
  /-- fuel exhaustion: models the unbounded retry recursion not returning. -/
  | retryLimit
  /-- `col_list[0]` on an empty list (serialization.py 181). -/
  | indexError
  /-- `list.index(x)` with `x` absent (serialization.py 193). -/
  | valueError
  /-- `pd.concat([])`: "No objects to concatenate" (serialization.py 197). -/
  | concatError
deriving DecidableEq

/-- A stored chunk's range header as fetched by `_validate_dates`
(`{'uid': 1, 'start': 1, 'end': 1}` projection; `docId` stands for the
Mongo `_id` quoted in the conflict message). -/
structure StoredDoc where
  docId : ℕ
  start : ℤ
  stop : ℤ
deriving DecidableEq

instance [DecidableEq ε] [DecidableEq γ] : DecidableEq (Except ε γ) := fun a b =>
  match a, b with
  | .error x, .error y =>
    if h : x = y then isTrue (by rw [h])
    else isFalse (fun hc => h (by injection hc))
  | .ok x, .ok y =>
    if h : x = y then isTrue (by rw [h])
    else isFalse (fun hc => h (by injection hc))
  | .error _, .ok _ => isFalse (fun hc => Except.noConfusion hc)
  | .ok _, .error _ => isFalse (fun hc => Except.noConfusion hc)

/-- `re.sub('\.', '', str(x))` (serialization.py 100): drop every `'.'`
from a column name. -/
def stripName (s : String) : String := ⟨s.data.filter (fun c => c ≠ '.')⟩

/-- The recorded UTC offset (serialization.py 91–97): `none` for a naive
index, otherwise `tzinfo._offset.seconds / 3600`.  A Python timedelta's
`.seconds` field is the *normalized* value in `[0, 86400)` — hence the
Euclidean `% 86400` — not the signed total. -/
def utcOffsetOf (tz : Option ℤ) : Option ℚ :=
  tz.map (fun s => Rat.divInt (Int.emod s 86400) 3600)

/-- When `_make_bson_doc` logs `'DatetimeIndex is timezone-naive.'`
(serialization.py 91–94): only for a naive index whose first 100 (sorted)
timestamps do not all fall on midnight. -/
def naiveWarning (tz : Option ℤ) (sortedIdx : List ℤ) : Bool :=
  tz == none && !((sortedIdx.take 100).all (fun t => Int.emod t 86400 == 0))

/-- The values of the `i`-th column of a row table (`df[col].values`).
Under the rectangularity invariant every `get?` hits, so nothing is
dropped. -/
def columnOf (rows : List (ℤ × List α)) (i : ℕ) : List α :=
  rows.filterMap (fun r => r.2.get? i)

/-- Helper for `colsOf`, carrying the current column position. -/
def colsOfAux (rows : List (ℤ × List α)) : List String → ℕ → List (String × List α)
  | [], _ => []
  | n :: ns, i => (n, columnOf rows i) :: colsOfAux rows ns (i + 1)

/-- The ordered name ↦ column-values mapping stored in a chunk
(the `SON` built in serialization.py 102–104, insertion order =
`df.columns` order). -/
def colsOf (names : List String) (rows : List (ℤ × List α)) : List (String × List α) :=
  colsOfAux rows names 0

/-- `df.memory_usage().sum()` (serialization.py 88, 144): 8 bytes per
cell for each data column plus the index (int64/float64/datetime64). -/
def memUsage (d : DF α) : ℕ := 8 * d.rows.length * (d.names.length + 1)

/-- `binary_size` of the chunk `_make_bson_doc` would build from `d`:
index blob size plus the sum of all column blob sizes
(serialization.py 107–108), on the sorted, dot-stripped frame. -/
def docBinarySize (szI : List ℤ → ℕ) (szC : List α → ℕ) (d : DF α) : ℕ :=
  szI ((sortK Prod.fst d.rows).map Prod.fst)
    + ((colsOf (d.names.map stripName) (sortK Prod.fst d.rows)).map (fun c => szC c.2)).sum

/-- `_make_bson_doc` (serialization.py 72–125): sort ascending, strip
dots from column names, encode index and columns, enforce the 95% size
ceiling (`binary_size > 0.95 * MAX_BSON_SIZE`, i.e. `20·b > 19·2^24`),
and assemble the document.  An empty sub-frame raises (`df.index[0]`). -/
def makeBsonDoc (szI : List ℤ → ℕ) (szC : List α → ℕ) (uid : String) (d : DF α) :
    Except Err (Doc α) :=
  if 20 * docBinarySize szI szC d > 19 * MAX_BSON_SIZE then
    .error (.invalidBSON (Rat.divInt (docBinarySize szI szC d) (memUsage d)))
  else
    match (sortK Prod.fst d.rows).map Prod.fst with
    | [] => .error .emptyIndex
    | t0 :: _ =>
      .ok { uid := uid
            start := t0
            stop := ((sortK Prod.fst d.rows).map Prod.fst).getLastD t0
            nrows := (sortK Prod.fst d.rows).length
            binarySize := docBinarySize szI szC d
            utcOffset := utcOffsetOf d.tz
            index := (sortK Prod.fst d.rows).map Prod.fst
            cols := colsOf (d.names.map stripName) (sortK Prod.fst d.rows) }

/-- The part sizes produced by `np.array_split` of a length-`len`
sequence into `n` sections: the first `len % n` parts get one extra
element. -/
def splitSizes (len n : ℕ) : List ℕ :=
  (List.range n).map (fun i => if i < len % n then len / n + 1 else len / n)

/-- Cut a list into consecutive parts of the given sizes. -/
def splitBySizes : List β → List ℕ → List (List β)
  | _, [] => []
  | l, s :: ss => l.take s :: splitBySizes (l.drop s) ss

/-- `np.array_split(l, n)`. -/
def arraySplit (l : List β) (n : ℕ) : List (List β) := splitBySizes l (splitSizes l.length n)

/-- `split_num = np.ceil(mem_usage / size)` (serialization.py 145),
as the exact integer ceiling `(mem + size - 1) / size` (the bridging
lemma `splitNum_eq_ceil` below proves it equal to `⌈mem / size⌉`);
a non-positive size cannot arise from the source's call sites but is
mapped to `0`, which `arraySplit` callers reject. -/
def splitNum (d : DF α) (size : ℤ) : ℕ :=
  if 0 < size then (memUsage d + (size.toNat - 1)) / size.toNat else 0

/-- Effectful map over `Except`, stopping at the first error — the
`for sub_df in split_dataframes(...)` accumulation loop. -/
def mapE (f : β → Except ε γ) : List β → Except ε (List γ)
  | [] => .ok []
  | x :: xs =>
    match f x with
    | .error e => .error e
    | .ok y => (mapE f xs).map (fun ys => y :: ys)

/-- Effectful left fold over `Except`, stopping at the first error —
a Python `for` loop mutating an accumulator, whose body may raise. -/
def foldE (f : β → γ → Except ε β) : β → List γ → Except ε β
  | b, [] => .ok b
  | b, x :: xs =>
    match f b x with
    | .error e => .error e
    | .ok b2 => foldE f b2 xs

/-- `make_bson_docs` (serialization.py 128–158): split the frame into
`ceil(mem/size)` positional parts, encode each; if some part raises
`InvalidBSON(ratio)`, recompute `new_max_size = floor(0.95 * MAX / ratio)`,
check `assert new_max_size > 0.8 * MAX` (`5·m > 4·2^24`), and restart on
the *whole original* frame.  The Python recursion is unbounded; here it
consumes `fuel` (running out is `retryLimit`). -/
def makeBsonDocs (szI : List ℤ → ℕ) (szC : List α → ℕ) :
    ℕ → String → DF α → ℤ → Except Err (List (Doc α))
  | 0, _, _, _ => .error .retryLimit
  | fuel + 1, uid, d, size =>
    if splitNum d size = 0 then .error .splitError
    else
      match mapE (fun part => makeBsonDoc szI szC uid { d with rows := part })
          (arraySplit d.rows (splitNum d size)) with
      | .ok docs => .ok docs
      | .error (.invalidBSON r) =>
        if 5 * newMaxSize r > 4 * (MAX_BSON_SIZE : ℤ) then
          makeBsonDocs szI szC fuel uid d (newMaxSize r)
        else .error .assertionError
      | .error e => .error e

/-- The index reconstruction of `_build_dataframe` (serialization.py
166–169): a falsy stored offset (absent *or zero*) leaves the index
naive; a non-zero offset `q` runs
`index.tz_localize(offset) + pd.Timedelta(seconds=offset)` with
`offset = int(q * 3600)`.  On instants, localizing naive values as
offset-local subtracts the offset and the added Timedelta puts it back;
the second component records the attached fixed offset. -/
def localizeIndex (off : Option ℚ) (idx : List ℤ) : List ℤ × Option ℤ :=
  match off with
  | none => (idx, none)
  | some q =>
    if q = 0 then (idx, none)
    else (idx.map (fun t => t - truncSeconds q + truncSeconds q), some (truncSeconds q))

/-- Python `list.insert(i, x)` (insertion past the end appends). -/
def listInsertAt (i : ℕ) (x : β) : List β → List β
  | [] => [x]
  | y :: ys =>
    match i with
    | 0 => x :: y :: ys
    | i + 1 => y :: listInsertAt i x ys

/-- The body of the inner loop of `fix_column_ordering`
(serialization.py 187–193) for one new column `c` of the chunk order
`cols`: look up `c`'s successor in `cols`; none (IndexError) → append;
successor already placed → insert right before it; successor present in
`cols` but not yet placed → the uncaught `ValueError` of
`final.index(next_item)`. -/
def insertOne (cols fin : List String) (c : String) : Except Err (List String) :=
  match cols.get? (cols.indexOf c + 1) with
  | none => .ok (fin ++ [c])
  | some nxt =>
    if nxt ∈ fin then .ok (listInsertAt (fin.indexOf nxt) c fin) else .error .valueError

/-- One outer-loop iteration of `fix_column_ordering` (serialization.py
182–193): skip a chunk whose columns are all placed, otherwise process
its new columns in chunk order (`sorted(set(cols) - set(final),
key=cols.index)`; chunk column names are Mongo document keys, hence
duplicate-free, so the filter realizes that set difference). -/
def fixStep (fin cols : List String) : Except Err (List String) :=
  if cols.all (fun c => decide (c ∈ fin)) then .ok fin
  else foldE (fun f c => insertOne cols f c) fin (cols.filter (fun c => decide (c ∉ fin)))

/-- `fix_column_ordering` (serialization.py 179–194): seed with the
first chunk's column order (`col_list[0]` on `[]` raises IndexError),
then fold the remaining chunks. -/
def fixColumnOrdering : List (List String) → Except Err (List String)
  | [] => .error .indexError
  | fin :: rest => foldE fixStep fin rest

/-- First-match association lookup (Python dict access on the ordered,
duplicate-free `doc['columns']`). -/
def lookupCol (c : String) : List (String × List α) → Option (List α)
  | [] => none
  | p :: ps => if p.1 = c then some p.2 else lookupCol c ps

/-- Rows of one decoded chunk, already reindexed to the final column
order `finCols` (the combined effect of `pd.concat` aligning by name and
`reindex(columns=cols)`): row `j` takes each final column's `j`-th value,
`none` (NaN) where the chunk lacks the column. -/
def docRowsAux (finCols : List String) (dcols : List (String × List α)) :
    List ℤ → ℕ → List (ℤ × List (Option α))
  | [], _ => []
  | t :: ts, j =>
    (t, finCols.map (fun c => (lookupCol c dcols).bind (fun l => l.get? j))) ::
      docRowsAux finCols dcols ts (j + 1)

/-- `_build_dataframe` of one chunk, reindexed to `finCols`. -/
def docRows (finCols : List String) (doc : Doc α) : List (ℤ × List (Option α)) :=
  docRowsAux finCols doc.cols (localizeIndex doc.utcOffset doc.index).1 0

/-- `build_dataframe` (serialization.py 176–200): decode every chunk,
concatenate (`pd.concat([])` on no chunks raises), repair the column
order, reindex and stably sort ascending by timestamp. -/
def buildDataframe (docs : List (Doc α)) : Except Err (Merged α) :=
  match docs with
  | [] => .error .concatError
  | _ =>
    match fixColumnOrdering (docs.map (fun doc => doc.cols.map Prod.fst)) with
    | .error e => .error e
    | .ok cols =>
      .ok { names := cols
            rows := sortK Prod.fst ((docs.map (fun doc => docRows cols doc)).flatten) }

/-- The no-conflict test of `_validate_dates` (corintick.py 197): the
stored interval `[cs, ce]` misses the new `[start, stop]` iff
`stop < cs ∨ start > ce`. -/
def noOverlap (start stop cs ce : ℤ) : Prop := stop < cs ∨ start > ce

instance (start stop cs ce : ℤ) : Decidable (noOverlap start stop cs ce) := by
  unfold noOverlap; infer_instance

/-- The scan loop of `_validate_dates` (corintick.py 196–203): skip
non-overlapping stored docs, raise on (i.e. return) the first conflict. -/
def checkDocs (start stop : ℤ) : List StoredDoc → Except StoredDoc Unit
  | [] => .ok ()
  | d :: ds =>
    if noOverlap start stop d.start d.stop then checkDocs start stop ds else .error d

/-- `_validate_dates` on the new range `[start, stop]`: stored docs are
scanned in ascending `start` order (`sorted(docs, key=lambda x: x['start'])`). -/
def validateDates (start stop : ℤ) (docs : List StoredDoc) : Except StoredDoc Unit :=
  checkDocs start stop (sortK StoredDoc.start docs)

/-- The `$or` filter built by `_query` (corintick.py 154–156) evaluated
on one stored chunk `[cs, ce]` for the query window `[qs, qe]`: chunk
contains the query start, OR chunk inside the window, OR chunk contains
the query end. -/
def queryFilter (qs qe cs ce : ℤ) : Prop :=
  (cs ≤ qs ∧ ce ≥ qs) ∨ (cs ≥ qs ∧ ce ≤ qe) ∨ (cs ≤ qe ∧ ce ≥ qe)

instance (qs qe cs ce : ℤ) : Decidable (queryFilter qs qe cs ce) := by
  unfold queryFilter; infer_instance

/-! ### Properties of the stable sort -/

theorem insertK_cons_le (key : β → ℤ) {x y : β} (h : key x ≤ key y) (ys : List β) :
    insertK key x (y :: ys) = x :: y :: ys := by
  simp only [insertK, if_pos h]

theorem insertK_cons_gt (key : β → ℤ) {x y : β} (h : ¬key x ≤ key y) (ys : List β) :
    insertK key x (y :: ys) = y :: insertK key x ys := by
  simp only [insertK, if_neg h]

theorem insertK_perm (key : β → ℤ) (x : β) (l : List β) :
    List.Perm (insertK key x l) (x :: l) := by
  induction l with
  | nil => simp [insertK]
  | cons y ys ih =>
    by_cases hxy : key x ≤ key y
    · rw [insertK_cons_le key hxy]
    · rw [insertK_cons_gt key hxy]
      exact (ih.cons y).trans (List.Perm.swap x y ys)

theorem sortK_perm (key : β → ℤ) (l : List β) : List.Perm (sortK key l) l := by
  induction l with
  | nil => simp [sortK]
  | cons x xs ih => exact (insertK_perm key x (sortK key xs)).trans (ih.cons x)

theorem mem_sortK (key : β → ℤ) (l : List β) (x : β) : x ∈ sortK key l ↔ x ∈ l :=
  (sortK_perm key l).mem_iff

theorem sortK_length (key : β → ℤ) (l : List β) : (sortK key l).length = l.length :=
  (sortK_perm key l).length_eq

theorem sortK_eq_nil_iff (key : β → ℤ) (l : List β) : sortK key l = [] ↔ l = [] := by
  constructor
  · intro h
    have := sortK_length key l
    rw [h] at this
    exact List.length_eq_zero.mp this.symm
  · intro h; rw [h]; rfl

theorem insertK_sorted (key : β → ℤ) (x : β) (l : List β)
    (h : List.Pairwise (fun a b => key a ≤ key b) l) :
    List.Pairwise (fun a b => key a ≤ key b) (insertK key x l) := by
  induction l with
  | nil => simp [insertK]
  | cons y ys ih =>
    rw [List.pairwise_cons] at h
    by_cases hxy : key x ≤ key y
    · rw [insertK_cons_le key hxy, List.pairwise_cons]
      refine ⟨?_, List.pairwise_cons.mpr h⟩
      intro b hb
      rcases List.mem_cons.mp hb with rfl | hb
      · exact hxy
      · exact le_trans hxy (h.1 b hb)
    · rw [insertK_cons_gt key hxy, List.pairwise_cons]
      refine ⟨?_, ih h.2⟩
      intro b hb
      rcases List.mem_cons.mp ((insertK_perm key x ys).mem_iff.mp hb) with rfl | hb
      · exact le_of_lt (not_le.mp hxy)
      · exact h.1 b hb

theorem sortK_sorted (key : β → ℤ) (l : List β) :
    List.Pairwise (fun a b => key a ≤ key b) (sortK key l) := by
  induction l with
  | nil => simp [sortK]
  | cons x xs ih => exact insertK_sorted key x _ ih

theorem sortK_of_sorted (key : β → ℤ) (l : List β)
    (h : List.Pairwise (fun a b => key a ≤ key b) l) : sortK key l = l := by
  induction l with
  | nil => rfl
  | cons x xs ih =>
    rw [List.pairwise_cons] at h
    rw [sortK, ih h.2]
    cases xs with
    | nil => rfl
    | cons y ys => rw [insertK_cons_le key (h.1 y (by simp))]

theorem sortK_idem (key : β → ℤ) (l : List β) : sortK key (sortK key l) = sortK key l :=
  sortK_of_sorted key _ (sortK_sorted key l)

theorem sortK_append (key : β → ℤ) (a b : List β) :
    sortK key (a ++ b) = List.foldr (insertK key) (sortK key b) a := by
  induction a with
  | nil => rfl
  | cons x xs ih => rw [List.cons_append, sortK, ih]; rfl

theorem insertK_comm (key : β → ℤ) {a b : β} (hlt : key b < key a) (l : List β) :
    insertK key b (insertK key a l) = insertK key a (insertK key b l) := by
  induction l with
  | nil =>
    show insertK key b [a] = insertK key a [b]
    rw [insertK_cons_le key (le_of_lt hlt), insertK_cons_gt key (not_le.mpr hlt)]
    rfl
  | cons z zs ih =>
    by_cases haz : key a ≤ key z
    · have hbz : key b ≤ key z := le_of_lt (lt_of_lt_of_le hlt haz)
      rw [insertK_cons_le key haz, insertK_cons_le key (le_of_lt hlt),
        insertK_cons_le key hbz, insertK_cons_gt key (not_le.mpr hlt),
        insertK_cons_le key haz]
    · by_cases hbz : key b ≤ key z
      · rw [insertK_cons_gt key haz, insertK_cons_le key hbz,
          insertK_cons_le key hbz, insertK_cons_gt key (not_le.mpr hlt),
          insertK_cons_gt key haz]
      · rw [insertK_cons_gt key haz, insertK_cons_gt key hbz,
          insertK_cons_gt key hbz, insertK_cons_gt key haz, ih]

theorem foldr_insertK (key : β → ℤ) (x : β) (l s : List β) :
    List.foldr (insertK key) s (insertK key x l) =
      insertK key x (List.foldr (insertK key) s l) := by
  induction l with
  | nil => rfl
  | cons y ys ih =>
    by_cases hxy : key x ≤ key y
    · rw [insertK_cons_le key hxy]
      simp only [List.foldr_cons]
    · rw [insertK_cons_gt key hxy, List.foldr_cons, List.foldr_cons, ih,
        insertK_comm key (not_le.mp hxy)]

theorem foldr_sortK (key : β → ℤ) (l s : List β) :
    List.foldr (insertK key) s (sortK key l) = List.foldr (insertK key) s l := by
  induction l with
  | nil => rfl
  | cons x xs ih => rw [sortK, foldr_insertK, ih]; rfl

theorem sortK_flatten_map_sortK (key : β → ℤ) (parts : List (List β)) :
    sortK key (parts.map (sortK key)).flatten = sortK key parts.flatten := by
  induction parts with
  | nil => rfl
  | cons p ps ih =>
    rw [List.map_cons, List.flatten_cons, List.flatten_cons,
      sortK_append, foldr_sortK, ← sortK_append, sortK_append key p,
      sortK_append key p, ih]

theorem insertK_map (key₁ : β → ℤ) (key₂ : γ → ℤ) (f : β → γ)
    (hf : ∀ x, key₂ (f x) = key₁ x) (x : β) (l : List β) :
    insertK key₂ (f x) (l.map f) = (insertK key₁ x l).map f := by
  induction l with
  | nil => rfl
  | cons y ys ih =>
    rw [List.map_cons]
    by_cases hxy : key₁ x ≤ key₁ y
    · rw [insertK_cons_le key₁ hxy,
        insertK_cons_le key₂ (by rw [hf, hf]; exact hxy)]
      rfl
    · rw [insertK_cons_gt key₁ hxy,
        insertK_cons_gt key₂ (by rw [hf, hf]; exact hxy), List.map_cons, ih]

theorem sortK_map (key₁ : β → ℤ) (key₂ : γ → ℤ) (f : β → γ)
    (hf : ∀ x, key₂ (f x) = key₁ x) (l : List β) :
    sortK key₂ (l.map f) = (sortK key₁ l).map f := by
  induction l with
  | nil => rfl
  | cons x xs ih => rw [List.map_cons, sortK, sortK, ih, insertK_map key₁ key₂ f hf]

/-! ### Properties of `arraySplit` -/

theorem splitSizes_length (len n : ℕ) : (splitSizes len n).length = n := by
  simp [splitSizes]

theorem splitSizes_sum (len n : ℕ) (hn : n ≠ 0) : (splitSizes len n).sum = len := by
  unfold splitSizes
  have h : ∀ m : ℕ, ((List.range m).map
      (fun i => if i < len % n then len / n + 1 else len / n)).sum =
      m * (len / n) + min m (len % n) := by
    intro m
    induction m with
    | zero => simp
    | succ m ih =>
      rw [List.range_succ, List.map_append, List.sum_append, ih]
      by_cases hm : m < len % n
      · simp only [List.map_cons, List.map_nil, if_pos hm]
        have : min m (len % n) = m := min_eq_left (le_of_lt hm)
        have h2 : min (m + 1) (len % n) = m + 1 := min_eq_left hm
        simp [this, h2]
        ring
      · simp only [List.map_cons, List.map_nil, if_neg hm]
        have : min m (len % n) = len % n := min_eq_right (not_lt.mp hm)
        have h2 : min (m + 1) (len % n) = len % n :=
          min_eq_right (le_trans (not_lt.mp hm) (Nat.le_succ m))
        simp [this, h2]
        ring
  rw [h n]
  have hmod : min n (len % n) = len % n :=
    min_eq_right (le_of_lt (Nat.mod_lt len (Nat.pos_of_ne_zero hn)))
  rw [hmod, Nat.div_add_mod]

theorem splitBySizes_flatten (l : List β) (ss : List ℕ) :
    (splitBySizes l ss).flatten = l.take ss.sum := by
  induction ss generalizing l with
  | nil => simp [splitBySizes]
  | cons s ss ih =>
    rw [splitBySizes, List.flatten_cons, ih, List.sum_cons, List.take_add]

theorem splitBySizes_length (l : List β) (ss : List ℕ) :
    (splitBySizes l ss).length = ss.length := by
  induction ss generalizing l with
  | nil => rfl
  | cons s ss ih => rw [splitBySizes, List.length_cons, ih, List.length_cons]

theorem arraySplit_flatten (l : List β) (n : ℕ) (hn : n ≠ 0) :
    (arraySplit l n).flatten = l := by
  rw [arraySplit, splitBySizes_flatten, splitSizes_sum _ _ hn, List.take_length]

theorem arraySplit_length (l : List β) (n : ℕ) : (arraySplit l n).length = n := by
  rw [arraySplit, splitBySizes_length, splitSizes_length]

/-! ### Properties of `mapE` -/

theorem mapE_ok_iff (f : β → Except ε γ) (l : List β) (ys : List γ) :
    mapE f l = .ok ys ↔ List.Forall₂ (fun x y => f x = .ok y) l ys := by
  induction l generalizing ys with
  | nil =>
    constructor
    · intro h
      cases ys with
      | nil => exact List.Forall₂.nil
      | cons y ys => simp [mapE] at h
    · intro h
      cases h
      rfl
  | cons x xs ih =>
    constructor
    · intro h
      rw [mapE] at h
      cases hx : f x with
      | error e => rw [hx] at h; simp at h
      | ok y =>
        rw [hx] at h
        cases hxs : mapE f xs with
        | error e => rw [hxs] at h; simp [Except.map] at h
        | ok ys' =>
          rw [hxs] at h
          simp only [Except.map, Except.ok.injEq] at h
          subst h
          exact List.Forall₂.cons hx ((ih ys').mp hxs)
    · intro h
      cases h with
      | cons hx hxs =>
        rw [mapE, hx, (ih _).mpr hxs]
        rfl

theorem mapE_ok_mem (f : β → Except ε γ) (l : List β) (ys : List γ)
    (h : mapE f l = .ok ys) (y : γ) (hy : y ∈ ys) : ∃ x ∈ l, f x = .ok y := by
  have h2 := (mapE_ok_iff f l ys).mp h
  clear h
  revert hy
  induction h2 with
  | nil => intro hy; cases hy
  | cons hx hxs ih =>
    intro hy
    rcases List.mem_cons.mp hy with rfl | hy'
    · exact ⟨_, by simp, hx⟩
    · rcases ih hy' with ⟨x, hxl, hfx⟩
      exact ⟨x, by simp [hxl], hfx⟩

theorem mapE_ok_length (f : β → Except ε γ) (l : List β) (ys : List γ)
    (h : mapE f l = .ok ys) : ys.length = l.length :=
  (List.Forall₂.length_eq ((mapE_ok_iff f l ys).mp h)).symm

/-! ### Unfolding lemmas for the encoder -/

theorem makeBsonDoc_ok (szI : List ℤ → ℕ) (szC : List α → ℕ) (uid : String)
    (d : DF α) (doc : Doc α) (h : makeBsonDoc szI szC uid d = .ok doc) :
    doc.index = (sortK Prod.fst d.rows).map Prod.fst ∧
    doc.cols = colsOf (d.names.map stripName) (sortK Prod.fst d.rows) ∧
    doc.utcOffset = utcOffsetOf d.tz ∧
    doc.binarySize = docBinarySize szI szC d ∧
    20 * docBinarySize szI szC d ≤ 19 * MAX_BSON_SIZE ∧
    d.rows ≠ [] := by
  unfold makeBsonDoc at h
  split at h
  · exact absurd h (by simp)
  next hsize =>
    split at h
    next heq => exact absurd h (by simp)
    next t0 tail heq =>
      injection h with h
      subst h
      refine ⟨?_, rfl, rfl, rfl, not_lt.mp hsize, ?_⟩
      · simp [heq]
      · intro hrows
        rw [hrows] at heq
        simp [sortK] at heq

theorem makeBsonDoc_oversize (szI : List ℤ → ℕ) (szC : List α → ℕ) (uid : String)
    (d : DF α) (h : 20 * docBinarySize szI szC d > 19 * MAX_BSON_SIZE) :
    makeBsonDoc szI szC uid d =
      .error (.invalidBSON (Rat.divInt (docBinarySize szI szC d) (memUsage d))) := by
  unfold makeBsonDoc
  rw [if_pos h]

theorem makeBsonDocs_ok (szI : List ℤ → ℕ) (szC : List α → ℕ) (fuel : ℕ) (uid : String)
    (d : DF α) (size : ℤ) (docs : List (Doc α))
    (h : makeBsonDocs szI szC fuel uid d size = .ok docs) :
    ∃ n : ℕ, n ≠ 0 ∧
      mapE (fun part => makeBsonDoc szI szC uid { d with rows := part })
        (arraySplit d.rows n) = .ok docs := by
  induction fuel generalizing size with
  | zero => exact absurd h (by simp [makeBsonDocs])
  | succ fuel ih =>
    rw [makeBsonDocs] at h
    split at h
    · exact absurd h (by simp)
    next hn =>
      split at h
      next hmap =>
        injection h with h
        subst h
        exact ⟨_, hn, hmap⟩
      next r hmap =>
        split at h
        · exact ih _ h
        · exact absurd h (by simp)
      next e hmap hne =>
        exact absurd h (by simp)

/-! ### Bridging the integer roundings to the rational formulas -/

theorem newMaxSize_eq_floor (r : ℚ) (hr : 0 < r) :
    newMaxSize r = ⌊(19 * (MAX_BSON_SIZE : ℚ) / 20) / r⌋ := by
  have hnum : 0 < r.num := Rat.num_pos.mpr hr
  have h20 : (0 : ℤ) ≤ 20 * r.num := by omega
  have hx : (19 * (MAX_BSON_SIZE : ℚ) / 20) / r =
      ((19 * (2 ^ 24 : ℤ) * r.den : ℤ) : ℚ) / (((20 * r.num).toNat : ℕ) : ℚ) := by
    have hd : ((r.den : ℚ)) ≠ 0 := by
      exact_mod_cast r.den_nz
    have hn : ((r.num : ℚ)) ≠ 0 := by
      exact_mod_cast hnum.ne'
    have hrne : r ≠ 0 := hr.ne'
    have hnum_eq : ((r.num : ℚ)) = r * (r.den : ℚ) :=
      (div_eq_iff hd).mp (Rat.num_div_den r)
    rw [show (((20 * r.num).toNat : ℕ) : ℚ) = ((20 * r.num : ℤ) : ℚ) from by
      exact_mod_cast Int.toNat_of_nonneg h20]
    simp only [MAX_BSON_SIZE]
    push_cast
    field_simp
    rw [hnum_eq]
    ring
  rw [newMaxSize, hx, Rat.floor_intCast_div_natCast,
    Int.toNat_of_nonneg h20, Int.fdiv_eq_ediv _ h20]

theorem splitNum_eq_ceil (d : DF α) (size : ℤ) (h : 0 < size) :
    ((splitNum d size : ℕ) : ℤ) = ⌈(memUsage d : ℚ) / ((size : ℤ) : ℚ)⌉ := by
  set m := memUsage d with hm
  set s := size.toNat with hs
  have hs0 : 0 < s := by omega
  have hsize : (size : ℤ) = (s : ℤ) := by omega
  have hsq' : (0 : ℚ) < ((s : ℕ) : ℚ) := by exact_mod_cast hs0
  set k := (m + (s - 1)) / s with hk
  obtain ⟨R, hR⟩ : ∃ R, (m + (s - 1)) % s = R := ⟨_, rfl⟩
  have hmod : s * k + R = m + (s - 1) := by rw [← hR]; exact Nat.div_add_mod _ s
  have hr : R < s := by rw [← hR]; exact Nat.mod_lt _ hs0
  have h1z : (s : ℤ) * (k : ℤ) + (R : ℤ) = (m : ℤ) + ((s : ℤ) - 1) := by
    have hcast := congrArg (Nat.cast : ℕ → ℤ) hmod
    push_cast [Nat.cast_sub (Nat.one_le_iff_ne_zero.mpr hs0.ne')] at hcast
    exact hcast
  have hrz : ((R : ℕ) : ℤ) < (s : ℤ) := by exact_mod_cast hr
  have hr0 : (0 : ℤ) ≤ ((R : ℕ) : ℤ) := by positivity
  have hupz : (m : ℤ) ≤ (k : ℤ) * (s : ℤ) := by linarith
  have hlowz : ((k : ℤ) - 1) * (s : ℤ) < (m : ℤ) := by nlinarith
  have hupq : (m : ℚ) / ((s : ℕ) : ℚ) ≤ (((k : ℕ) : ℤ) : ℚ) := by
    rw [div_le_iff hsq']
    exact_mod_cast hupz
  have hlowq : ((((k : ℕ) : ℤ) : ℚ)) - 1 < (m : ℚ) / ((s : ℕ) : ℚ) := by
    rw [show ((((k : ℕ) : ℤ) : ℚ)) - 1 = (((k : ℤ) - 1 : ℤ) : ℚ) by push_cast; ring,
      lt_div_iff hsq']
    exact_mod_cast hlowz
  have hceil : ⌈(m : ℚ) / ((s : ℕ) : ℚ)⌉ = ((k : ℕ) : ℤ) :=
    Int.ceil_eq_iff.mpr ⟨hlowq, hupq⟩
  rw [splitNum, if_pos h]
  rw [show ((size : ℤ) : ℚ) = ((s : ℕ) : ℚ) by rw [hsize]; push_cast; ring]
  rw [hceil]

/-! ### Reconstruction lemmas for the decoder -/

theorem colsOfAux_fst (rows : List (ℤ × List α)) (names : List String) (i : ℕ) :
    (colsOfAux rows names i).map Prod.fst = names := by
  induction names generalizing i with
  | nil => rfl
  | cons n ns ih => rw [colsOfAux, List.map_cons, ih]

theorem lookupCol_colsOfAux (rows : List (ℤ × List α)) (names : List String)
    (hnd : names.Nodup) (k : ℕ) (c : String) (hk : names.get? k = some c) (i : ℕ) :
    lookupCol c (colsOfAux rows names i) = some (columnOf rows (i + k)) := by
  induction names generalizing i k with
  | nil => simp at hk
  | cons n ns ih =>
    rw [List.nodup_cons] at hnd
    cases k with
    | zero =>
      simp only [List.get?] at hk
      injection hk with hk
      subst hk
      rw [colsOfAux, lookupCol, if_pos rfl, Nat.add_zero]
    | succ k =>
      simp only [List.get?] at hk
      rw [colsOfAux, lookupCol, if_neg ?_]
      · rw [ih hnd.2 k hk (i + 1)]
        congr 2
        omega
      · intro hEq
        have hnc : n = c := hEq
        exact hnd.1 (by rw [hnc]; exact List.get?_mem hk)

theorem columnOf_get? (rows : List (ℤ × List α)) (i : ℕ)
    (h : ∀ r ∈ rows, i < r.2.length) (m : ℕ) :
    (columnOf rows i).get? m = (rows.get? m).bind (fun r => r.2.get? i) := by
  induction rows generalizing m with
  | nil => simp [columnOf]
  | cons r rs ih =>
    obtain ⟨v, hv⟩ : ∃ v, r.2.get? i = some v :=
      ⟨_, List.get?_eq_get (h r (by simp))⟩
    have hcol : columnOf (r :: rs) i = v :: columnOf rs i := by
      rw [columnOf, List.filterMap_cons, hv, columnOf]
    cases m with
    | zero =>
      rw [hcol]
      show some v = (some r).bind fun r => r.2.get? i
      rw [Option.some_bind, hv]
    | succ m =>
      rw [hcol]
      simp only [List.get?]
      rw [ih (fun r' hr' => h r' (by simp [hr'])) m]

theorem docRowsAux_get? (finCols : List String) (dcols : List (String × List α))
    (idx : List ℤ) (j m : ℕ) :
    (docRowsAux finCols dcols idx j).get? m =
      (idx.get? m).map (fun t =>
        (t, finCols.map (fun c => (lookupCol c dcols).bind (fun l => l.get? (j + m))))) := by
  induction idx generalizing j m with
  | nil => simp [docRowsAux]
  | cons t ts ih =>
    cases m with
    | zero => simp [docRowsAux]
    | succ m =>
      rw [docRowsAux]
      simp only [List.get?]
      rw [ih (j + 1) m]
      have : j + 1 + m = j + (m + 1) := by omega
      rw [this]

theorem lookupCol_colsOf (rows : List (ℤ × List α)) (names : List String)
    (hnd : names.Nodup) (k : ℕ) (c : String) (hk : names.get? k = some c) :
    lookupCol c (colsOf names rows) = some (columnOf rows k) := by
  have h := lookupCol_colsOfAux rows names hnd k c hk 0
  rwa [Nat.zero_add] at h

theorem docRowsAux_encoded (names : List String) (rows : List (ℤ × List α))
    (hnd : names.Nodup) (hw : ∀ r ∈ rows, r.2.length = names.length) :
    docRowsAux names (colsOf names rows) (rows.map Prod.fst) 0 =
      rows.map (fun r => (r.1, r.2.map some)) := by
  apply List.ext
  intro m
  rw [docRowsAux_get?, List.get?_map, List.get?_map]
  cases hm : rows.get? m with
  | none => rfl
  | some r =>
    have hr : r ∈ rows := List.get?_mem hm
    simp only [Option.map_some']
    refine congrArg some (Prod.ext rfl ?_)
    apply List.ext
    intro k
    rw [List.get?_map, List.get?_map]
    cases hk : names.get? k with
    | none =>
      have hlen : names.length ≤ k := List.get?_eq_none.mp hk
      have h2 : r.2.get? k = none := List.get?_eq_none.mpr (by rw [hw r hr]; exact hlen)
      rw [h2]
      rfl
    | some c =>
      obtain ⟨hklt, -⟩ := List.get?_eq_some.mp hk
      have hwk : ∀ r' ∈ rows, k < r'.2.length := fun r' hr' => by
        rw [hw r' hr']; exact hklt
      obtain ⟨v, hv⟩ : ∃ v, r.2.get? k = some v :=
        ⟨_, List.get?_eq_get (hwk r hr)⟩
      simp only [Option.map_some']
      rw [lookupCol_colsOf rows names hnd k c hk, Nat.zero_add,
        Option.some_bind, columnOf_get? rows k hwk m, hm, Option.some_bind, hv]
      rfl

theorem localizeIndex_fst (off : Option ℚ) (idx : List ℤ) :
    (localizeIndex off idx).1 = idx := by
  cases off with
  | none => rfl
  | some q =>
    by_cases hq : q = 0
    · simp [localizeIndex, hq]
    · simp [localizeIndex, hq, sub_add_cancel]

/-! ### The merge on chunks sharing one column set -/

theorem fixStep_of_subset (fin cols : List String) (h : ∀ c ∈ cols, c ∈ fin) :
    fixStep fin cols = .ok fin := by
  unfold fixStep
  rw [if_pos]
  rw [List.all_eq_true]
  intro c hc
  exact decide_eq_true (h c hc)

theorem foldE_fixStep_const (fin : List String) (rest : List (List String))
    (h : ∀ x ∈ rest, x = fin) : foldE fixStep fin rest = .ok fin := by
  induction rest with
  | nil => rfl
  | cons x xs ih =>
    have hx : x = fin := h x (by simp)
    subst hx
    simp only [foldE, fixStep_of_subset x x (fun c hc => hc)]
    exact ih (fun y hy => h y (by simp [hy]))

/-! ### The round trip -/

theorem docRows_of_makeBsonDoc (szI : List ℤ → ℕ) (szC : List α → ℕ) (uid : String)
    (d : DF α) (doc : Doc α) (h : makeBsonDoc szI szC uid d = .ok doc)
    (hnd : (d.names.map stripName).Nodup)
    (hw : ∀ r ∈ d.rows, r.2.length = d.names.length) :
    docRows (d.names.map stripName) doc =
      (sortK Prod.fst d.rows).map (fun r => (r.1, r.2.map some)) := by
  obtain ⟨hidx, hcols, hoff, -, -, -⟩ := makeBsonDoc_ok szI szC uid d doc h
  rw [docRows, hcols, hoff, localizeIndex_fst, hidx]
  exact docRowsAux_encoded _ _ hnd (fun r hr => by
    rw [hw r ((mem_sortK _ _ _).mp hr), List.length_map])

theorem docs_map_docRows (szI : List ℤ → ℕ) (szC : List α → ℕ) (uid : String)
    (tz : Option ℤ) (names : List String) (hnd : (names.map stripName).Nodup)
    (parts : List (List (ℤ × List α))) (docs : List (Doc α))
    (hforall : List.Forall₂ (fun part doc =>
      makeBsonDoc szI szC uid { tz := tz, names := names, rows := part } = .ok doc)
        parts docs)
    (hw : ∀ part ∈ parts, ∀ r ∈ part, r.2.length = names.length) :
    docs.map (docRows (names.map stripName)) =
      parts.map (fun p => (sortK Prod.fst p).map (fun r => (r.1, r.2.map some))) := by
  induction hforall with
  | nil => rfl
  | cons hpd hrest ih =>
    rw [List.map_cons, List.map_cons,
      docRows_of_makeBsonDoc szI szC uid _ _ hpd hnd (hw _ (by simp)),
      ih (fun p hp => hw p (by simp [hp]))]

theorem roundtrip_general (szI : List ℤ → ℕ) (szC : List α → ℕ) (fuel : ℕ)
    (uid : String) (d : DF α) (size : ℤ) (docs : List (Doc α))
    (hw : ∀ r ∈ d.rows, r.2.length = d.names.length)
    (hnd : (d.names.map stripName).Nodup)
    (hok : makeBsonDocs szI szC fuel uid d size = .ok docs) :
    buildDataframe docs = .ok
      { names := d.names.map stripName
        rows := sortK Prod.fst (d.rows.map (fun r => (r.1, r.2.map some))) } := by
  obtain ⟨n, hn, hmap⟩ := makeBsonDocs_ok szI szC fuel uid d size docs hok
  have hforall := (mapE_ok_iff _ _ _).mp hmap
  have hflat : (arraySplit d.rows n).flatten = d.rows := arraySplit_flatten _ n hn
  have hpartw : ∀ part ∈ arraySplit d.rows n, ∀ r ∈ part, r.2.length = d.names.length := by
    intro part hp r hr
    exact hw r (by rw [← hflat]; exact List.mem_flatten.mpr ⟨part, hp, hr⟩)
  have hdocslen : docs.length = n := by
    rw [mapE_ok_length _ _ _ hmap, arraySplit_length]
  obtain ⟨doc0, docs', rfl⟩ : ∃ doc0 docs', docs = doc0 :: docs' := by
    cases docs with
    | nil => exact absurd hdocslen (by simpa using Ne.symm hn)
    | cons a b => exact ⟨a, b, rfl⟩
  have hcolnames : ∀ doc ∈ doc0 :: docs', doc.cols.map Prod.fst = d.names.map stripName := by
    intro doc hdoc
    obtain ⟨part, hpart, hpd⟩ := mapE_ok_mem _ _ _ hmap doc hdoc
    obtain ⟨-, hcols, -, -, -, -⟩ := makeBsonDoc_ok szI szC uid _ doc hpd
    rw [hcols]
    exact colsOfAux_fst _ _ 0
  have hfix : fixColumnOrdering ((doc0 :: docs').map (fun doc => doc.cols.map Prod.fst)) =
      .ok (d.names.map stripName) := by
    rw [List.map_cons, hcolnames doc0 (by simp), fixColumnOrdering]
    apply foldE_fixStep_const
    intro x hx
    obtain ⟨doc, hdoc, rfl⟩ := List.mem_map.mp hx
    exact hcolnames doc (by simp [hdoc])
  have hmaps : (doc0 :: docs').map (docRows (d.names.map stripName)) =
      (arraySplit d.rows n).map
        (fun p => (sortK Prod.fst p).map (fun r => (r.1, r.2.map some))) :=
    docs_map_docRows szI szC uid d.tz d.names hnd _ _ hforall hpartw
  have hwrap : ∀ p : List (ℤ × List α),
      (sortK Prod.fst p).map (fun r : ℤ × List α => (r.1, r.2.map some)) =
        sortK Prod.fst (p.map (fun r : ℤ × List α => (r.1, r.2.map some))) :=
    fun p => (sortK_map Prod.fst Prod.fst
      (fun r : ℤ × List α => (r.1, r.2.map some)) (fun x => rfl) p).symm
  have hrows : sortK Prod.fst
      (((doc0 :: docs').map (docRows (d.names.map stripName))).flatten) =
      sortK Prod.fst (d.rows.map (fun r => (r.1, r.2.map some))) := by
    rw [hmaps]
    simp only [hwrap]
    rw [show ((arraySplit d.rows n).map
          (fun p => sortK Prod.fst (p.map (fun r : ℤ × List α => (r.1, r.2.map some))))) =
        (((arraySplit d.rows n).map
          (List.map (fun r : ℤ × List α => (r.1, r.2.map some)))).map (sortK Prod.fst)) from by
      rw [List.map_map]; rfl]
    rw [sortK_flatten_map_sortK, ← List.map_flatten, hflat]
  simp only [buildDataframe, hfix, hrows]

/-! ### The overlap validator -/

theorem checkDocs_ok_iff (start stop : ℤ) (l : List StoredDoc) :
    checkDocs start stop l = .ok () ↔
      ∀ dc ∈ l, noOverlap start stop dc.start dc.stop := by
  induction l with
  | nil => simp [checkDocs]
  | cons dc ds ih =>
    by_cases hdc : noOverlap start stop dc.start dc.stop
    · rw [checkDocs, if_pos hdc, ih]
      constructor
      · intro h x hx
        rcases List.mem_cons.mp hx with rfl | hx
        · exact hdc
        · exact h x hx
      · intro h x hx
        exact h x (by simp [hx])
    · rw [checkDocs, if_neg hdc]
      constructor
      · intro h; exact absurd h (by simp)
      · intro h; exact absurd (h dc (by simp)) hdc

theorem checkDocs_error (start stop : ℤ) (l : List StoredDoc) (dconf : StoredDoc)
    (h : checkDocs start stop l = .error dconf) :
    dconf ∈ l ∧ ¬noOverlap start stop dconf.start dconf.stop := by
  induction l with
  | nil => exact absurd h (by simp [checkDocs])
  | cons dc ds ih =>
    by_cases hdc : noOverlap start stop dc.start dc.stop
    · rw [checkDocs, if_pos hdc] at h
      obtain ⟨hmem, hov⟩ := ih h
      exact ⟨by simp [hmem], hov⟩
    · rw [checkDocs, if_neg hdc] at h
      injection h with h
      subst h
      exact ⟨by simp, hdc⟩

theorem checkDocs_cases (start stop : ℤ) (l : List StoredDoc) :
    checkDocs start stop l = .ok () ∨ ∃ dconf, checkDocs start stop l = .error dconf := by
  cases h : checkDocs start stop l with
  | ok u => cases u; exact Or.inl rfl
  | error dconf => exact Or.inr ⟨dconf, rfl⟩

/-- C2: the overlap validator raises a conflict naming a stored chunk iff
some existing interval `[d.start, d.end]` satisfies
`not (end < d.start or start > d.end)`; it succeeds (and the write
proceeds) iff no existing interval intersects the new range. -/
theorem claim_C2 (start stop : ℤ) (docs : List StoredDoc) :
    ((∃ dconf, validateDates start stop docs = .error dconf) ↔
      ∃ dc ∈ docs, ¬(stop < dc.start ∨ start > dc.stop)) ∧
    (validateDates start stop docs = .ok () ↔
      ∀ dc ∈ docs, stop < dc.start ∨ start > dc.stop) ∧
    (∀ dconf, validateDates start stop docs = .error dconf →
      dconf ∈ docs ∧ ¬(stop < dconf.start ∨ start > dconf.stop)) := by
  have hmem : ∀ dc : StoredDoc, dc ∈ sortK StoredDoc.start docs ↔ dc ∈ docs :=
    fun dc => mem_sortK StoredDoc.start docs dc
  have hok : validateDates start stop docs = .ok () ↔
      ∀ dc ∈ docs, stop < dc.start ∨ start > dc.stop := by
    rw [validateDates, checkDocs_ok_iff]
    constructor
    · intro h dc hdc
      exact h dc ((hmem dc).mpr hdc)
    · intro h dc hdc
      exact h dc ((hmem dc).mp hdc)
  have herr : ∀ dconf, validateDates start stop docs = .error dconf →
      dconf ∈ docs ∧ ¬(stop < dconf.start ∨ start > dconf.stop) := by
    intro dconf h
    obtain ⟨hm, hov⟩ := checkDocs_error start stop _ dconf h
    exact ⟨(hmem dconf).mp hm, hov⟩
  refine ⟨?_, hok, herr⟩
  constructor
  · rintro ⟨dconf, hconf⟩
    obtain ⟨hm, hov⟩ := herr dconf hconf
    exact ⟨dconf, hm, hov⟩
  · rintro ⟨dc, hdc, hov⟩
    rcases checkDocs_cases start stop (sortK StoredDoc.start docs) with h | ⟨dconf, hconf⟩
    · exact absurd ((hok.mp h) dc hdc) hov
    · exact ⟨dconf, hconf⟩

/-- C2 witness: the spec scenario — an existing chunk spanning days 0–364
conflicts with a new write spanning days 151–180. -/
theorem claim_C2_witness :
    validateDates 151 180 [⟨1, 0, 364⟩] = .error ⟨1, 0, 364⟩ ∧
    (⟨1, 0, 364⟩ : StoredDoc) ∈ [(⟨1, 0, 364⟩ : StoredDoc)] ∧
    ¬((180 : ℤ) < 0 ∨ (151 : ℤ) > 364) := by
  refine ⟨by decide, ?_⟩
  exact (claim_C2 151 180 [⟨1, 0, 364⟩]).2.2 ⟨1, 0, 364⟩ (by decide)

/-- C5: for valid intervals the three-way `$or` disjunction of `_query`
is equivalent to the intersection test of the overlap validator. -/
theorem claim_C5 (qs qe cs ce : ℤ) (hq : qs ≤ qe) (hc : cs ≤ ce) :
    queryFilter qs qe cs ce ↔ ¬noOverlap qs qe cs ce := by
  unfold queryFilter noOverlap
  omega

/-- C5 witness: for stored ranges `[1,5]` and `[10,15]` the window
`[3,12]` selects both and the window `[6,9]` selects neither. -/
theorem claim_C5_witness :
    ((1 : ℤ) ≤ 5 ∧ (3 : ℤ) ≤ 12 ∧ (queryFilter 3 12 1 5 ↔ ¬noOverlap 3 12 1 5)) ∧
    queryFilter 3 12 1 5 ∧ queryFilter 3 12 10 15 ∧
    ¬queryFilter 6 9 1 5 ∧ ¬queryFilter 6 9 10 15 :=
  ⟨⟨by decide, by decide, claim_C5 3 12 1 5 (by decide) (by decide)⟩,
    by decide, by decide, by decide, by decide⟩

/-- C6 counterexample: decoding the empty chunk list does not yield an
empty segment. -/
theorem claim_C6_counterexample :
    buildDataframe ([] : List (Doc ℤ)) ≠ .ok { names := [], rows := [] } := by
  intro h
  exact absurd h (by simp [buildDataframe])

/-- C6 (amended): `decode_chunks([])` raises the `pd.concat` "no objects
to concatenate" error instead of returning an empty segment. -/
theorem claim_C6 (α : Type) : buildDataframe ([] : List (Doc α)) = .error .concatError := rfl

/-- C6 witness: the amended behaviour at integer-valued chunks. -/
theorem claim_C6_witness : buildDataframe ([] : List (Doc ℤ)) = .error .concatError :=
  claim_C6 ℤ

/-- C9: on decode, a stored `utc_offset` equal to 0 is falsy and treated
as no offset — the index stays naive and unshifted; only a non-zero
offset localizes (and shifts) the index. -/
theorem claim_C9 (idx : List ℤ) :
    localizeIndex none idx = (idx, none) ∧
    localizeIndex (some 0) idx = (idx, none) ∧
    (∀ q : ℚ, q ≠ 0 →
      localizeIndex (some q) idx = (idx, some (truncSeconds q))) := by
  refine ⟨rfl, by simp [localizeIndex], ?_⟩
  intro q hq
  show (if q = 0 then (idx, none)
    else (idx.map (fun t => t - truncSeconds q + truncSeconds q),
      some (truncSeconds q))) = (idx, some (truncSeconds q))
  rw [if_neg hq]
  exact Prod.ext (by simp [sub_add_cancel]) rfl

/-- C9 witness: offset 0 decodes like no offset; offset 9 h attaches a
32400-second fixed offset. -/
theorem claim_C9_witness :
    localizeIndex (some 0) [(3 : ℤ)] = ([3], none) ∧
    ((9 : ℚ) ≠ 0 ∧ localizeIndex (some 9) [(3 : ℤ)] = ([3], some 32400)) := by
  refine ⟨(claim_C9 [3]).2.1, by decide, ?_⟩
  exact ((claim_C9 [3]).2.2 9 (by decide)).trans (by decide)

/-- C3: every chunk in a successful encoder result satisfies
`binary_size ≤ 0.95 · 2^24` (as exact integers, `20·b ≤ 19·2^24`); a
frame whose encoded size exceeds that bound never yields a chunk but
raises `InvalidBSON` carrying the observed compression ratio
`binary_size / mem_usage`. -/
theorem claim_C3 (szI : List ℤ → ℕ) (szC : List α → ℕ) :
    (∀ (fuel : ℕ) (uid : String) (d : DF α) (size : ℤ) (docs : List (Doc α)),
      makeBsonDocs szI szC fuel uid d size = .ok docs →
      ∀ doc ∈ docs, 20 * doc.binarySize ≤ 19 * MAX_BSON_SIZE) ∧
    (∀ (uid : String) (d : DF α) (doc : Doc α),
      makeBsonDoc szI szC uid d = .ok doc →
      20 * doc.binarySize ≤ 19 * MAX_BSON_SIZE) ∧
    (∀ (uid : String) (d : DF α), d.rows ≠ [] →
      20 * docBinarySize szI szC d > 19 * MAX_BSON_SIZE →
      makeBsonDoc szI szC uid d =
        .error (.invalidBSON (Rat.divInt (docBinarySize szI szC d) (memUsage d)))) := by
  refine ⟨?_, ?_, ?_⟩
  · intro fuel uid d size docs hok doc hdoc
    obtain ⟨n, hn, hmap⟩ := makeBsonDocs_ok szI szC fuel uid d size docs hok
    obtain ⟨part, hp, hpd⟩ := mapE_ok_mem _ _ _ hmap doc hdoc
    obtain ⟨-, -, -, hbs, hle, -⟩ := makeBsonDoc_ok szI szC uid _ doc hpd
    rw [hbs]
    exact hle
  · intro uid d doc h
    obtain ⟨-, -, -, hbs, hle, -⟩ := makeBsonDoc_ok szI szC uid d doc h
    rw [hbs]
    exact hle
  · intro uid d _ h
    exact makeBsonDoc_oversize szI szC uid d h

/-- C3 witness: a one-row frame whose blobs measure `2^24` bytes each is
oversized and raises `InvalidBSON` with ratio `2^25 / 16 = 2097152`. -/
theorem claim_C3_witness :
    (20 * docBinarySize (fun _ => 2 ^ 24) (fun _ : List ℤ => 2 ^ 24)
        ({ tz := none, names := ["a"], rows := [((0 : ℤ), [(7 : ℤ)])] } : DF ℤ) >
      19 * MAX_BSON_SIZE) ∧
    makeBsonDoc (fun _ => 2 ^ 24) (fun _ : List ℤ => 2 ^ 24) "u"
      ({ tz := none, names := ["a"], rows := [((0 : ℤ), [(7 : ℤ)])] } : DF ℤ) =
      .error (.invalidBSON 2097152) := by
  refine ⟨by decide, ?_⟩
  exact ((claim_C3 (fun _ => 2 ^ 24) (fun _ : List ℤ => 2 ^ 24)).2.2 "u" _
    (by decide) (by decide)).trans (by decide)

/-- C7: when some sub-frame raises `InvalidBSON(ratio)`, `make_bson_docs`
recomputes the budget as `floor(0.95 · 2^24 / ratio)` and restarts on the
entire original frame with it; if the recomputed budget is not above 80%
of the ceiling the `assert` fails — a fatal error instead of a retry.
(The second conjunct certifies that the integer `newMaxSize` is exactly
the claimed `⌊0.95 · 2^24 / ratio⌋`.) -/
theorem claim_C7 (szI : List ℤ → ℕ) (szC : List α → ℕ) (fuel : ℕ) (uid : String)
    (d : DF α) (size : ℤ) (r : ℚ)
    (hn : splitNum d size ≠ 0)
    (herr : mapE (fun part => makeBsonDoc szI szC uid { d with rows := part })
      (arraySplit d.rows (splitNum d size)) = .error (.invalidBSON r)) :
    (makeBsonDocs szI szC (fuel + 1) uid d size =
      if 5 * newMaxSize r > 4 * (MAX_BSON_SIZE : ℤ) then
        makeBsonDocs szI szC fuel uid d (newMaxSize r)
      else .error .assertionError) ∧
    (0 < r → newMaxSize r = ⌊(19 * (MAX_BSON_SIZE : ℚ) / 20) / r⌋) := by
  constructor
  · rw [makeBsonDocs, if_neg hn, herr]
  · intro hr
    exact newMaxSize_eq_floor r hr

/-- C7 witness: with per-blob size `2^24` the observed ratio is `2^21`,
the recomputed budget `floor(0.95 · 2^24 / 2^21) = 7` fails the 80%
assertion, and the encoder aborts fatally. -/
theorem claim_C7_witness :
    splitNum ({ tz := none, names := ["a"], rows := [((0 : ℤ), [(7 : ℤ)])] } : DF ℤ)
        (2 ^ 26) ≠ 0 ∧
    makeBsonDocs (fun _ => 2 ^ 24) (fun _ : List ℤ => 2 ^ 24) 2 "u"
      ({ tz := none, names := ["a"], rows := [((0 : ℤ), [(7 : ℤ)])] } : DF ℤ) (2 ^ 26) =
      .error .assertionError := by
  refine ⟨by decide, ?_⟩
  exact ((claim_C7 (fun _ => 2 ^ 24) (fun _ : List ℤ => 2 ^ 24) 1 "u" _ (2 ^ 26) 2097152
    (by decide) (by decide)).1).trans (by decide)

theorem makeBsonDoc_ok_iff (szI : List ℤ → ℕ) (szC : List α → ℕ) (uid : String)
    (d : DF α) :
    (∃ doc, makeBsonDoc szI szC uid d = .ok doc) ↔
      20 * docBinarySize szI szC d ≤ 19 * MAX_BSON_SIZE ∧ d.rows ≠ [] := by
  constructor
  · rintro ⟨doc, hdoc⟩
    obtain ⟨-, -, -, -, hle, hne⟩ := makeBsonDoc_ok szI szC uid d doc hdoc
    exact ⟨hle, hne⟩
  · rintro ⟨hle, hne⟩
    have hidx : (sortK Prod.fst d.rows).map Prod.fst ≠ [] := by
      intro hEq
      exact hne ((sortK_eq_nil_iff _ _).mp (List.map_eq_nil.mp hEq))
    obtain ⟨t0, rest, hcons⟩ := List.exists_cons_of_ne_nil hidx
    cases hres : makeBsonDoc szI szC uid d with
    | ok doc => exact ⟨doc, rfl⟩
    | error e =>
      unfold makeBsonDoc at hres
      rw [if_neg (not_lt.mpr hle), hcons] at hres
      exact absurd hres (by simp)

/-- C8 counterexample: for a fixed offset of -5 hours (-18000 s) the
recorded value is `timedelta.seconds / 3600 = 19`, not the signed `-5`;
and a timezone-naive index whose timestamps are all midnights issues no
warning. -/
theorem claim_C8_counterexample :
    utcOffsetOf (some (-18000)) = some 19 ∧
    ((-18000 : ℤ) : ℚ) / 3600 = -5 ∧ (19 : ℚ) ≠ -5 ∧
    naiveWarning none [0, 86400] = false := by
  refine ⟨by decide, by norm_num, by norm_num, by decide⟩

/-- C8 (amended): the encoder records the offset as the
timedelta-normalized value `(seconds mod 86400) / 3600` — always
non-negative hours, equal to the signed offset exactly when the offset
lies in `[0 h, 24 h)`; a naive index stores no offset and warns only
when one of its first 100 sorted timestamps has a non-midnight time of
day; and whether encoding succeeds does not depend on the timezone. -/
theorem claim_C8 (szI : List ℤ → ℕ) (szC : List α → ℕ) :
    (∀ s : ℤ, 0 ≤ s → s < 86400 → utcOffsetOf (some s) = some (Rat.divInt s 3600)) ∧
    (∀ s : ℤ, ∃ q : ℚ, utcOffsetOf (some s) = some q ∧ 0 ≤ q) ∧
    utcOffsetOf none = none ∧
    (∀ (tz : Option ℤ) (idx : List ℤ), naiveWarning tz idx = true ↔
      tz = none ∧ ∃ t ∈ idx.take 100, Int.emod t 86400 ≠ 0) ∧
    (∀ (uid : String) (d : DF α) (doc : Doc α),
      makeBsonDoc szI szC uid d = .ok doc → doc.utcOffset = utcOffsetOf d.tz) ∧
    (∀ (uid : String) (d : DF α) (tz1 tz2 : Option ℤ),
      ((∃ doc, makeBsonDoc szI szC uid { d with tz := tz1 } = .ok doc) ↔
        (∃ doc, makeBsonDoc szI szC uid { d with tz := tz2 } = .ok doc))) := by
  refine ⟨?_, ?_, rfl, ?_, ?_, ?_⟩
  · intro s h0 h1
    simp only [utcOffsetOf, Option.map_some']
    rw [show Int.emod s 86400 = s from Int.emod_eq_of_lt h0 h1]
  · intro s
    refine ⟨Rat.divInt (Int.emod s 86400) 3600, rfl, ?_⟩
    exact Rat.divInt_nonneg (Int.emod_nonneg s (by norm_num)) (by norm_num)
  · intro tz idx
    simp only [naiveWarning, Bool.and_eq_true, beq_iff_eq, Bool.not_eq_true',
      List.all_eq_false]
  · intro uid d doc h
    exact (makeBsonDoc_ok szI szC uid d doc h).2.2.1
  · intro uid d tz1 tz2
    rw [makeBsonDoc_ok_iff, makeBsonDoc_ok_iff]
    rfl

/-- C8 witness: a +9 h offset (32400 s) is within `[0, 24 h)` and is
recorded as `32400 / 3600 = 9` hours; a naive non-midnight index warns. -/
theorem claim_C8_witness :
    ((0 : ℤ) ≤ 32400 ∧ (32400 : ℤ) < 86400 ∧
      utcOffsetOf (some 32400) = some (Rat.divInt 32400 3600)) ∧
    (naiveWarning none [3600] = true ↔
      (none : Option ℤ) = none ∧ ∃ t ∈ [(3600 : ℤ)].take 100, Int.emod t 86400 ≠ 0) := by
  refine ⟨⟨by decide, by decide, ?_⟩, ?_⟩
  · exact (claim_C8 (fun _ => 1) (fun _ : List ℤ => 1)).1 32400 (by decide) (by decide)
  · exact (claim_C8 (fun _ => 1) (fun _ : List ℤ => 1)).2.2.2.1 none [3600]

/-- C4 counterexample: merging chunk orders `["a"]` then `["b","c"]`
hits a new column (`"b"`) whose successor (`"c"`) is not yet placed;
the code raises the uncaught `ValueError` of `final.index` instead of
appending as the claim states. -/
theorem claim_C4_counterexample :
    fixColumnOrdering [["a"], ["b", "c"]] = .error .valueError ∧
    fixColumnOrdering [["a"], ["b", "c"]] ≠ .ok ["a", "b", "c"] := by
  exact ⟨by decide, by decide⟩

/-- C4 (amended): the final order seeds with the first chunk's order and
chunks already covered are skipped; a new column with no successor in
its chunk is appended at the end, one whose successor is already placed
is inserted immediately before that successor, and one whose successor
is present in the chunk but not yet placed raises an error (the uncaught
`ValueError`); merging `[a,b,c]` with `[a,c,d]` yields `[a,b,c,d]`. -/
theorem claim_C4 :
    fixColumnOrdering [["a", "b", "c"], ["a", "c", "d"]] = .ok ["a", "b", "c", "d"] ∧
    (∀ l : List String, fixColumnOrdering [l] = .ok l) ∧
    (∀ fin cols : List String, (∀ c ∈ cols, c ∈ fin) → fixStep fin cols = .ok fin) ∧
    (∀ (cols fin : List String) (c : String),
      (cols.get? (cols.indexOf c + 1) = none → insertOne cols fin c = .ok (fin ++ [c])) ∧
      (∀ nxt, cols.get? (cols.indexOf c + 1) = some nxt → nxt ∈ fin →
        insertOne cols fin c = .ok (listInsertAt (fin.indexOf nxt) c fin)) ∧
      (∀ nxt, cols.get? (cols.indexOf c + 1) = some nxt → nxt ∉ fin →
        insertOne cols fin c = .error .valueError)) := by
  refine ⟨by decide, fun l => rfl, fun fin cols h => fixStep_of_subset fin cols h, ?_⟩
  intro cols fin c
  refine ⟨?_, ?_, ?_⟩
  · intro h
    simp only [insertOne, h]
  · intro nxt h hmem
    simp only [insertOne, h]
    rw [if_pos hmem]
  · intro nxt h hmem
    simp only [insertOne, h]
    rw [if_neg hmem]

/-- C4 witness: in chunk order `["b","c"]` against placed order `["a"]`,
the new column `"b"` has successor `"c"` which is not yet placed, and
the merge errors. -/
theorem claim_C4_witness :
    (["b", "c"] : List String).get? ((["b", "c"] : List String).indexOf "b" + 1) =
      some "c" ∧
    "c" ∉ (["a"] : List String) ∧
    insertOne ["b", "c"] ["a"] "b" = .error .valueError := by
  refine ⟨by decide, by decide, ?_⟩
  exact (claim_C4.2.2.2 ["b", "c"] ["a"] "b").2.2 "c" (by decide) (by decide)

theorem stripName_of_no_dot (s : String) (h : '.' ∉ s.data) : stripName s = s := by
  unfold stripName
  cases s with
  | mk data =>
    congr 1
    apply List.filter_eq_self.mpr
    intro c hc
    exact decide_eq_true (fun hcd => h (hcd ▸ hc))

theorem stripName_no_dot (s : String) : '.' ∉ (stripName s).data := by
  unfold stripName
  intro h
  have hmem := List.of_mem_filter h
  simp at hmem

/-- C1 counterexample: encoding strips `'.'` from column names, so the
round trip of a one-column frame named `"a.b"` returns the column set
`["ab"]`, not the original `["a.b"]` — the claim's "column set …
exactly" fails as stated. -/
theorem claim_C1_counterexample :
    (makeBsonDocs (fun _ => 1) (fun _ => 1) 1 "u"
        ({ tz := none, names := ["a.b"], rows := [((0 : ℤ), [(5 : ℤ)])] } : DF ℤ)
        (2 ^ 26)).bind buildDataframe =
      .ok { names := ["ab"], rows := [((0 : ℤ), [some (5 : ℤ)])] } ∧
    (["ab"] : List String) ≠ ["a.b"] := by
  exact ⟨by decide, by decide⟩

/-- C1 (amended): for a rectangular frame whose column names are
duplicate-free and contain no `'.'`, whenever the encoder succeeds (for
whatever size budget, blob-size measure and retry fuel), decoding the
produced chunks reproduces the exact column list and cell values, with
the rows stably sorted ascending by timestamp — hence the same row
count, column set and values as the input. -/
theorem claim_C1 (szI : List ℤ → ℕ) (szC : List α → ℕ) (fuel : ℕ) (uid : String)
    (d : DF α) (size : ℤ) (docs : List (Doc α))
    (hw : ∀ r ∈ d.rows, r.2.length = d.names.length)
    (hnodup : d.names.Nodup)
    (hnodot : ∀ nm ∈ d.names, '.' ∉ nm.data)
    (hok : makeBsonDocs szI szC fuel uid d size = .ok docs) :
    buildDataframe docs = .ok
      { names := d.names
        rows := sortK Prod.fst (d.rows.map (fun r => (r.1, r.2.map some))) } := by
  have hstrip : d.names.map stripName = d.names := by
    have hgen : ∀ l : List String, (∀ nm ∈ l, '.' ∉ nm.data) → l.map stripName = l := by
      intro l
      induction l with
      | nil => intro _; rfl
      | cons x xs ih =>
        intro hl
        rw [List.map_cons, stripName_of_no_dot x (hl x (by simp)),
          ih (fun nm hnm => hl nm (by simp [hnm]))]
    exact hgen d.names hnodot
  have h := roundtrip_general szI szC fuel uid d size docs hw
    (by rw [hstrip]; exact hnodup) hok
  rw [hstrip] at h
  exact h

/-- C1 witness: a two-row one-column frame encodes into a single chunk
and decodes back to its rows sorted ascending by timestamp. -/
theorem claim_C1_witness :
    makeBsonDocs (fun _ => 1) (fun _ => 1) 1 "u"
      ({ tz := none, names := ["a"], rows := [((3 : ℤ), [(7 : ℤ)]), ((1 : ℤ), [(9 : ℤ)])] } : DF ℤ)
      (2 ^ 26) =
      .ok [{ uid := "u", start := 1, stop := 3, nrows := 2, binarySize := 2,
             utcOffset := none, index := [1, 3], cols := [("a", [9, 7])] }] ∧
    buildDataframe
      [({ uid := "u", start := 1, stop := 3, nrows := 2, binarySize := 2,
          utcOffset := none, index := [1, 3], cols := [("a", [9, 7])] } : Doc ℤ)] =
      .ok { names := ["a"], rows := [((1 : ℤ), [some (9 : ℤ)]), ((3 : ℤ), [some (7 : ℤ)])] } := by
  refine ⟨by decide, ?_⟩
  exact (claim_C1 (fun _ => 1) (fun _ => 1) 1 "u"
    ({ tz := none, names := ["a"], rows := [((3 : ℤ), [(7 : ℤ)]), ((1 : ℤ), [(9 : ℤ)])] } : DF ℤ)
    (2 ^ 26)
    [{ uid := "u", start := 1, stop := 3, nrows := 2, binarySize := 2,
       utcOffset := none, index := [1, 3], cols := [("a", [9, 7])] }]
    (by decide) (by decide) (by decide) (by decide)).trans (by decide)

/-- C10: the encoder strips every `'.'` from column names — no produced
chunk contains a dotted column name, a dotted name is genuinely changed
by the stripping, and the decoded result of any successful encoding
carries the stripped names. -/
theorem claim_C10 (szI : List ℤ → ℕ) (szC : List α → ℕ) :
    (∀ (uid : String) (d : DF α) (doc : Doc α), makeBsonDoc szI szC uid d = .ok doc →
      ∀ p ∈ doc.cols, '.' ∉ p.1.data) ∧
    (∀ nm : String, '.' ∈ nm.data → stripName nm ≠ nm) ∧
    (∀ (fuel : ℕ) (uid : String) (d : DF α) (size : ℤ) (docs : List (Doc α)) (m : Merged α),
      (∀ r ∈ d.rows, r.2.length = d.names.length) →
      (d.names.map stripName).Nodup →
      makeBsonDocs szI szC fuel uid d size = .ok docs →
      buildDataframe docs = .ok m →
      m.names = d.names.map stripName) := by
  refine ⟨?_, ?_, ?_⟩
  · intro uid d doc h p hp
    obtain ⟨-, hcols, -, -, -, -⟩ := makeBsonDoc_ok szI szC uid d doc h
    have hmem : p.1 ∈ doc.cols.map Prod.fst := List.mem_map_of_mem Prod.fst hp
    rw [hcols] at hmem
    simp only [colsOf] at hmem
    rw [colsOfAux_fst] at hmem
    obtain ⟨nm, -, heq⟩ := List.mem_map.mp hmem
    rw [← heq]
    exact stripName_no_dot nm
  · intro nm h hEq
    exact stripName_no_dot nm (by rw [hEq]; exact h)
  · intro fuel uid d size docs m hw hnd hok hm
    have h := roundtrip_general szI szC fuel uid d size docs hw hnd hok
    rw [hm] at h
    injection h with h
    rw [h]

/-- C10 witness: the dotted name `"a.b"` is changed by the stripping. -/
theorem claim_C10_witness :
    '.' ∈ "a.b".data ∧ stripName "a.b" ≠ "a.b" :=
  ⟨by decide, (claim_C10 (fun _ => 1) (fun _ : List ℤ => 1)).2.1 "a.b" (by decide)⟩

end Corintick
